import Mathlib

set_option maxRecDepth 8000

/-!
Shallow embedding of the `tree_parser` crate (src/lib.rs): an arithmetic
expression front end consisting of a tokenizer, a recursive-descent parser
over the grammar

  Expr   = Term { ("+" | "-") Term }
  Term   = Factor { ("*" | "/") Factor }
  Factor = Number | "(" Expr ")"

an evaluator and an infix renderer.

Modelling choices, stated once here:

* Rust `f64` values are modelled by `F64`: an exact rational together with the
  two infinities and NaN.  All numeric literals the tokenizer can produce are
  runs of ASCII digits, i.e. nonnegative integers; literals whose value
  reaches the IEEE-754 double overflow threshold `2^1024 - 2^970` parse to
  `+inf` exactly as Rust's `str::parse::<f64>` does.  Rounding of finite
  values to the nearest double and signed zeros are not modelled; no claim
  depends on them (all finite values appearing in the claims are small
  integers, for which double arithmetic is exact).
* The mutable `&mut Vec<String>` token buffer of the Rust parser is modelled
  by explicit state passing: each parsing function returns the parsed
  expression together with the remaining token list.
* The Rust parser's recursion terminates because it consumes tokens; in the
  embedding this is made structural with a fuel parameter.  `parse_expression`
  supplies fuel `10 * tokens.length + 10`, which is comfortably above the
  worst-case call depth of `3 * tokens.length + 3` (three grammar levels per
  consumed token).
* `evaluate` in Rust panics (`unreachable!`) on an operator outside
  `+ - * /`; the embedding returns `Option F64`, with `none` for that panic
  branch.
* Rust's generic `parse_binary_op(tokens, subparser, ops)` is instantiated at
  its two call sites; the embedding spells those two instantiations out as
  `exprOpLoop` (ops `+ -`, subparser `parse_term`) and `termOpLoop`
  (ops `* /`, subparser `parse_factor`), each a direct transcription of the
  Rust loop body.
* Rust `char::is_whitespace` is Unicode White_Space; the embedding uses
  Lean's `Char.isWhitespace` (space, tab, CR, LF), which agrees on every
  character occurring in the claims.
-/

/-- Model of the Rust `f64` values reachable in this program: an exact
rational, a signed infinity (`pos = true` for `+inf`), or NaN.  Rounding to
the nearest double and signed zeros are not modelled (see the header). -/
inductive F64 where
  | finite (q : ℚ)
  | inf (pos : Bool)
  | nan
deriving DecidableEq

/-- Exact rational addition, written through `mkRat` so that it reduces in
the kernel; `ratAdd_eq` shows it is the addition of `ℚ`. -/
def ratAdd (a b : ℚ) : ℚ := mkRat (a.num * b.den + b.num * a.den) (a.den * b.den)

/-- Exact rational subtraction; `ratSub_eq` shows it is the subtraction
of `ℚ`. -/
def ratSub (a b : ℚ) : ℚ := mkRat (a.num * b.den - b.num * a.den) (a.den * b.den)

/-- Exact rational multiplication; `ratMul_eq` shows it is the
multiplication of `ℚ`. -/
def ratMul (a b : ℚ) : ℚ := mkRat (a.num * b.num) (a.den * b.den)

/-- Exact rational division; `ratDiv_eq` shows it is the division of `ℚ` on
every nonzero denominator (it is only applied to nonzero denominators). -/
def ratDiv (a b : ℚ) : ℚ := Rat.divInt (a.num * b.den) (a.den * b.num)

theorem ratAdd_eq (a b : ℚ) : ratAdd a b = a + b := (Rat.add_def' a b).symm

theorem ratSub_eq (a b : ℚ) : ratSub a b = a - b := (Rat.sub_def' a b).symm

theorem ratMul_eq (a b : ℚ) : ratMul a b = a * b := by
  rw [ratMul, Rat.mul_def, Rat.normalize_eq_mkRat]

theorem ratDiv_eq (a b : ℚ) (hb : b ≠ 0) : ratDiv a b = a / b := by
  have hbn : b.num ≠ 0 := Rat.num_ne_zero.mpr hb
  have had : (a.den : ℤ) ≠ 0 := Int.natCast_ne_zero.mpr a.den_nz
  rw [ratDiv, Rat.div_def, Rat.inv_def]
  conv_rhs => rw [← Rat.divInt_self a]
  rw [Rat.divInt_mul_divInt _ _ had hbn]

namespace F64

/-- IEEE-754 addition on the modelled values (exact where both operands are
finite). -/
def add : F64 → F64 → F64
  | nan, _ => nan
  | _, nan => nan
  | inf s, inf t => if s = t then inf s else nan
  | inf s, finite _ => inf s
  | finite _, inf t => inf t
  | finite a, finite b => finite (ratAdd a b)

/-- IEEE-754 subtraction on the modelled values. -/
def sub : F64 → F64 → F64
  | nan, _ => nan
  | _, nan => nan
  | inf s, inf t => if s = t then nan else inf s
  | inf s, finite _ => inf s
  | finite _, inf t => inf (!t)
  | finite a, finite b => finite (ratSub a b)

/-- IEEE-754 multiplication on the modelled values: `inf * 0 = NaN`,
otherwise signs multiply. -/
def mul : F64 → F64 → F64
  | nan, _ => nan
  | _, nan => nan
  | inf s, inf t => inf (s = t)
  | inf s, finite b => if b = 0 then nan else inf (s = decide (0 < b))
  | finite a, inf t => if a = 0 then nan else inf (t = decide (0 < a))
  | finite a, finite b => finite (ratMul a b)

/-- IEEE-754 division on the modelled values: `x / 0` is `NaN` for `x = 0`
and a signed infinity otherwise (the zero denominator is `+0`); `inf / inf`
is `NaN`; `finite / inf` is zero. -/
def div : F64 → F64 → F64
  | nan, _ => nan
  | _, nan => nan
  | inf _, inf _ => nan
  | inf s, finite b => if b < 0 then inf (!s) else inf s
  | finite _, inf _ => finite 0
  | finite a, finite b =>
    if b = 0 then (if a = 0 then nan else inf (decide (0 < a)))
    else finite (ratDiv a b)

/-- True for the two infinities and NaN: the values the division-by-zero
claims describe as "an infinite or NaN float". -/
def isNonFinite : F64 → Bool
  | finite _ => false
  | _ => true

end F64

/-- The AST of src/lib.rs: `Expr::Number(f64)` and
`Expr::BinaryOp { op, left, right }`. -/
inductive Expr where
  | Number (v : F64)
  | BinaryOp (op : Char) (left : Expr) (right : Expr)
deriving DecidableEq

/-- The error enum of src/lib.rs: `UnexpectedEnd`, `UnexpectedToken(String)`,
`MissingClosingParenthesis`. -/
inductive ParseError where
  | UnexpectedEnd
  | UnexpectedToken (tok : String)
  | MissingClosingParenthesis
deriving DecidableEq

deriving instance DecidableEq for Except

/-- Decimal digits of `n`, most significant first, by repeated division; the
fuel argument makes the recursion structural, and `n + 1` units always
suffice since `n / 10 < n` for `n ≠ 0`. -/
def natDigitsAux : Nat → Nat → List Char
  | 0, _ => []
  | fuel + 1, n =>
    if n = 0 then [] else natDigitsAux fuel (n / 10) ++ [Nat.digitChar (n % 10)]

/-- Standard decimal rendering of a natural number, the text Rust's `Display`
produces for a nonnegative integral `f64`. -/
def natToDecimal (n : Nat) : String :=
  if n = 0 then "0" else String.mk (natDigitsAux (n + 1) n)

/-- Value of a list of decimal digit characters, most significant first. -/
def digitsToNat (cs : List Char) : Nat :=
  List.foldl (fun n c => 10 * n + (c.toNat - 48)) 0 cs

/-- Fractional decimal digits of `r / b` (for `r < b`), at most `fuel` many;
used only to render non-integral finite values, which no parser-produced tree
contains (literals are integers), so this is an unexercised approximation of
Rust's shortest-round-trip formatting. -/
def fracDigitsAux : Nat → Nat → Nat → List Char
  | 0, _, _ => []
  | fuel + 1, r, b =>
    if r = 0 then [] else Nat.digitChar (10 * r / b) :: fracDigitsAux fuel (10 * r % b) b

/-- Model of Rust `format!("\x7b\x7d", x)` for an `f64`: `NaN`, `inf`,
`-inf`, integral values as plain decimal (this is the only case reachable
from parser-produced trees), and non-integral finite values as a truncated
decimal expansion (unexercised, see `fracDigitsAux`). -/
def fmtF64 : F64 → String
  | .nan => "NaN"
  | .inf true => "inf"
  | .inf false => "-inf"
  | .finite q =>
    if q.den = 1 then
      if q.num < 0 then "-" ++ natToDecimal q.num.natAbs else natToDecimal q.num.natAbs
    else
      (if q.num < 0 then "-" else "")
        ++ natToDecimal (q.num.natAbs / q.den) ++ "."
        ++ String.mk (fracDigitsAux 17 (q.num.natAbs % q.den) q.den)

/-- `Expr::to_infix` of src/lib.rs: a `Number` renders as its numeric text,
a `BinaryOp` as `"(" + left + " " + op + " " + right + ")"`. -/
def toInfix : Expr → String
  | .Number v => fmtF64 v
  | .BinaryOp op l r =>
    "(" ++ toInfix l ++ " " ++ String.singleton op ++ " " ++ toInfix r ++ ")"

/-- The loop body of `tokenize` in src/lib.rs.  The Rust code pushes tokens
onto a growing vector and keeps the pending number literal in a `String`;
the embedding emits the tokens in the same order functionally and keeps the
pending literal as its list of characters (`num`).  Whitespace is skipped,
a digit extends the pending literal, and any other character first flushes
the pending literal (if nonempty) and then becomes its own one-character
token; the end of input flushes the pending literal. -/
def tokenizeGo : List Char → List Char → List String
  | [], num => if num = [] then [] else [String.mk num]
  | ch :: rest, num =>
    if ch.isWhitespace then tokenizeGo rest num
    else if ch.isDigit then tokenizeGo rest (num ++ [ch])
    else (if num = [] then [] else [String.mk num]) ++ (ch.toString :: tokenizeGo rest [])

/-- `tokenize` of src/lib.rs.  The Rust function returns
`Result<Vec<String>, ParseError>` but has no error path (it always returns
`Ok`); the embedding returns the token list directly. -/
def tokenize (input : String) : List String :=
  tokenizeGo input.data []

/-- The IEEE-754 double overflow threshold: a real value at or above
`2^1024 - 2^970` rounds (ties-to-even) to `2^1024`, i.e. overflows to
`+inf`. -/
def f64OverflowBound : Nat := 2 ^ 1024 - 2 ^ 970

/-- Model of Rust `token.parse::<f64>()` on the tokens this program can
produce (runs of ASCII digits, or single non-digit characters): a nonempty
all-digit token parses to its value, overflowing to `+inf` at the IEEE
threshold; every other reachable token (single non-digit character) fails.
General `f64` syntax (`1.5`, `-3`, `inf`, `1e9`) never reaches this point
because no such string is ever a token. -/
def parseF64 (s : String) : Option F64 :=
  if s.data ≠ [] ∧ s.data.all Char.isDigit then
    if f64OverflowBound ≤ digitsToNat s.data then some (.inf true)
    else some (.finite (digitsToNat s.data : ℚ))
  else none

mutual

/-- `parse_expr` of src/lib.rs:
`parse_binary_op(tokens, parse_term, &['+', '-'])` — parse one `Term`, then
run the `+ -` chain loop.  The fuel argument makes the recursion structural
(see the header); the parsed expression is returned together with the
remaining tokens, modelling the `&mut Vec<String>` argument. -/
def parse_expr : Nat → List String → Except ParseError (Expr × List String)
  | 0, _ => .error .UnexpectedEnd
  | fuel + 1, tokens =>
    match parse_term fuel tokens with
    | .error e => .error e
    | .ok (left, rest) => exprOpLoop fuel left rest

/-- The `while let` loop of `parse_binary_op` instantiated with
`subparser = parse_term`, `ops = ['+', '-']`: peek at the first character of
the next token; if it is a level operator, consume the token, parse the next
`Term`, and fold it into a left-growing node
`left = BinaryOp(op, left, right)`; otherwise stop and return `left` with
the tokens untouched. -/
def exprOpLoop : Nat → Expr → List String → Except ParseError (Expr × List String)
  | 0, _, _ => .error .UnexpectedEnd
  | fuel + 1, left, tokens =>
    match tokens.head?.bind (fun s => s.data.head?) with
    | none => .ok (left, tokens)
    | some op =>
      if op ∈ ['+', '-'] then
        match parse_term fuel tokens.tail with
        | .error e => .error e
        | .ok (right, rest) => exprOpLoop fuel (.BinaryOp op left right) rest
      else .ok (left, tokens)

/-- `parse_term` of src/lib.rs:
`parse_binary_op(tokens, parse_factor, &['*', '/'])`. -/
def parse_term : Nat → List String → Except ParseError (Expr × List String)
  | 0, _ => .error .UnexpectedEnd
  | fuel + 1, tokens =>
    match parse_factor fuel tokens with
    | .error e => .error e
    | .ok (left, rest) => termOpLoop fuel left rest

/-- The `while let` loop of `parse_binary_op` instantiated with
`subparser = parse_factor`, `ops = ['*', '/']`. -/
def termOpLoop : Nat → Expr → List String → Except ParseError (Expr × List String)
  | 0, _, _ => .error .UnexpectedEnd
  | fuel + 1, left, tokens =>
    match tokens.head?.bind (fun s => s.data.head?) with
    | none => .ok (left, tokens)
    | some op =>
      if op ∈ ['*', '/'] then
        match parse_factor fuel tokens.tail with
        | .error e => .error e
        | .ok (right, rest) => termOpLoop fuel (.BinaryOp op left right) rest
      else .ok (left, tokens)

/-- `parse_factor` of src/lib.rs: error `UnexpectedEnd` on an empty buffer;
otherwise remove the first token; `"("` opens a parenthesized `Expr` whose
next token must be `")"` (else `MissingClosingParenthesis`); otherwise the
token must parse as an `f64` numeric literal, else
`UnexpectedToken(token)`. -/
def parse_factor : Nat → List String → Except ParseError (Expr × List String)
  | 0, _ => .error .UnexpectedEnd
  | fuel + 1, tokens =>
    match tokens with
    | [] => .error .UnexpectedEnd
    | token :: rest =>
      if token = "(" then
        match parse_expr fuel rest with
        | .error e => .error e
        | .ok (e, rest') =>
          match rest' with
          | [] => .error .MissingClosingParenthesis
          | t :: rest'' =>
            if t = ")" then .ok (e, rest'') else .error .MissingClosingParenthesis
      else
        match parseF64 token with
        | some num => .ok (.Number num, rest)
        | none => .error (.UnexpectedToken token)

end

/-- `parse_expression` of src/lib.rs: tokenize, then `parse_expr`; the final
token state is dropped, so trailing tokens are ignored.  The fuel
`10 * tokens.length + 10` is always sufficient (see the header). -/
def parse_expression (input : String) : Except ParseError Expr :=
  let tokens := tokenize input
  match parse_expr (10 * tokens.length + 10) tokens with
  | .ok (e, _) => .ok e
  | .error e => .error e

/-- `evaluate` of src/lib.rs.  The Rust function returns a bare `f64` and
panics (`unreachable!`) on an operator outside `+ - * /`; the embedding
returns `none` exactly on that panic branch.  Both children are evaluated,
left first, then combined by the operator. -/
def evaluate : Expr → Option F64
  | .Number n => some n
  | .BinaryOp op l r =>
    match evaluate l with
    | none => none
    | some lv =>
      match evaluate r with
      | none => none
      | some rv =>
        match op with
        | '+' => some (F64.add lv rv)
        | '-' => some (F64.sub lv rv)
        | '*' => some (F64.mul lv rv)
        | '/' => some (F64.div lv rv)
        | _ => none

/-- The operator-validity invariant of the spec: every `BinaryOp` node's
operator is one of `+ - * /`. -/
def validOps : Expr → Bool
  | .Number _ => true
  | .BinaryOp op l r => ['+', '-', '*', '/'].contains op && validOps l && validOps r

/-- The left-growing fold the spec ascribes to `parse_binary_op`: starting
from a first operand, each `(op, right)` pair wraps the accumulator as
`BinaryOp(op, acc, right)`. -/
def leftFold (e : Expr) (ps : List (Char × Expr)) : Expr :=
  List.foldl (fun acc p => Expr.BinaryOp p.1 acc p.2) e ps

/-- True when every `Number` leaf holds a finite value (no overflowed
literal). -/
def allFiniteLeaves : Expr → Bool
  | .Number (.finite _) => true
  | .Number _ => false
  | .BinaryOp _ l r => allFiniteLeaves l && allFiniteLeaves r

/-- Shape invariant every parser-produced tree satisfies: each leaf is a
nonnegative-integer literal below the overflow threshold or an overflowed
`+inf` literal, and each operator is one of `+ - * /`. -/
def GoodTree : Expr → Prop
  | .Number v => (∃ n : ℕ, n < f64OverflowBound ∧ v = .finite (n : ℚ)) ∨ v = .inf true
  | .BinaryOp op l r => (op = '+' ∨ op = '-' ∨ op = '*' ∨ op = '/') ∧ GoodTree l ∧ GoodTree r

/-- Trees whose infix rendering re-parses to the same tree: every leaf a
finite nonnegative-integer literal below the overflow threshold, every
operator one of `+ - * /`. -/
def Renderable : Expr → Prop
  | .Number v => ∃ n : ℕ, n < f64OverflowBound ∧ v = .finite (n : ℚ)
  | .BinaryOp op l r => (op = '+' ∨ op = '-' ∨ op = '*' ∨ op = '/') ∧ Renderable l ∧ Renderable r

/-- The token sequence of a tree's infix rendering (the rendering of a
factor-level operand: a bare literal or a fully parenthesized group). -/
def renderF : Expr → List String
  | .Number v => [fmtF64 v]
  | .BinaryOp op l r => "(" :: (renderF l ++ String.singleton op :: renderF r) ++ [")"]

/-- The token sequence inside a parenthesized group: the two factor-level
operands joined by the operator token. -/
def renderE : Expr → List String
  | .Number v => [fmtF64 v]
  | .BinaryOp op l r => renderF l ++ String.singleton op :: renderF r

/-- Node count of a tree, used for fuel bookkeeping. -/
def esize : Expr → Nat
  | .Number _ => 1
  | .BinaryOp _ l r => esize l + esize r + 1

/-- A token state on which both operator-chain loops stop: no next token,
or its first character is not an operator. -/
def stopsOps (ts : List String) : Prop :=
  match ts.head?.bind (fun s => s.data.head?) with
  | none => True
  | some c => c ∉ ['+', '-', '*', '/']

/-- A character stream that terminates a pending number literal: its first
non-whitespace character, if any, is not a digit. -/
def stopsNumber (cs : List Char) : Prop :=
  match cs.dropWhile Char.isWhitespace with
  | [] => True
  | c :: _ => c.isDigit = false

/-- A character of the claims' valid input alphabet: whitespace, an ASCII
digit, an operator or a parenthesis. -/
def validChar (c : Char) : Bool :=
  c.isWhitespace || c.isDigit || ['+', '-', '*', '/', '(', ')'].contains c

/-- The 310-digit literal `1` followed by 309 zeros: its value `10 ^ 309`
exceeds the IEEE-754 double overflow threshold. -/
def overflowInput : String := String.mk ('1' :: List.replicate 309 '0')

/-- The tree of `2 + 3 * 4`. -/
def tree234 : Expr :=
  .BinaryOp '+' (.Number (.finite 2))
    (.BinaryOp '*' (.Number (.finite 3)) (.Number (.finite 4)))

/-- The tree of `8 - 3 - 2` under left-associative grouping. -/
def tree832 : Expr :=
  .BinaryOp '-' (.BinaryOp '-' (.Number (.finite 8)) (.Number (.finite 3)))
    (.Number (.finite 2))

/-- The tree of `1 + 2 * 3`. -/
def tree123 : Expr :=
  .BinaryOp '+' (.Number (.finite 1))
    (.BinaryOp '*' (.Number (.finite 2)) (.Number (.finite 3)))

/-- The tree of `2 + 3`. -/
def tree23 : Expr := .BinaryOp '+' (.Number (.finite 2)) (.Number (.finite 3))

/-- The tree of `10 / (5 - 5)`. -/
def treeDiv0 : Expr :=
  .BinaryOp '/' (.Number (.finite 10))
    (.BinaryOp '-' (.Number (.finite 5)) (.Number (.finite 5)))

theorem parseF64_good {s : String} {v : F64} (h : parseF64 s = some v) :
    (∃ n : ℕ, n < f64OverflowBound ∧ v = .finite (n : ℚ)) ∨ v = .inf true := by
  unfold parseF64 at h
  split at h
  · split at h
    · right; injection h with h'; exact h'.symm
    · left
      refine ⟨digitsToNat s.data, by omega, ?_⟩
      injection h with h'
      exact h'.symm
  · exact absurd h (by simp)

/-- Every successful parse produces a `GoodTree`: valid operators, and each
leaf a below-threshold nonnegative integer or an overflowed `+inf`. -/
theorem parse_good (fuel : Nat) :
    (∀ ts e rest, parse_expr fuel ts = .ok (e, rest) → GoodTree e) ∧
    (∀ left ts e rest, GoodTree left → exprOpLoop fuel left ts = .ok (e, rest) → GoodTree e) ∧
    (∀ ts e rest, parse_term fuel ts = .ok (e, rest) → GoodTree e) ∧
    (∀ left ts e rest, GoodTree left → termOpLoop fuel left ts = .ok (e, rest) → GoodTree e) ∧
    (∀ ts e rest, parse_factor fuel ts = .ok (e, rest) → GoodTree e) := by
  induction fuel with
  | zero =>
    refine ⟨?_, ?_, ?_, ?_, ?_⟩ <;> intros <;>
      simp_all [parse_expr, exprOpLoop, parse_term, termOpLoop, parse_factor]
  | succ f ih =>
    obtain ⟨ihE, ihEL, ihT, ihTL, ihF⟩ := ih
    refine ⟨?_, ?_, ?_, ?_, ?_⟩
    · intro ts e rest h
      rw [parse_expr] at h
      split at h
      · exact absurd h (by simp)
      · rename_i left rest1 heq
        exact ihEL _ _ _ _ (ihT _ _ _ heq) h
    · intro left ts e rest hleft h
      rw [exprOpLoop] at h
      split at h
      · injection h with h'
        injection h' with h1 h2
        exact h1 ▸ hleft
      · rename_i op hop
        split at h
        · rename_i hmem
          split at h
          · exact absurd h (by simp)
          · rename_i right rest1 heq
            refine ihEL _ _ _ _ ?_ h
            refine ⟨?_, hleft, ihT _ _ _ heq⟩
            simp at hmem
            tauto
        · injection h with h'
          injection h' with h1 h2
          exact h1 ▸ hleft
    · intro ts e rest h
      rw [parse_term] at h
      split at h
      · exact absurd h (by simp)
      · rename_i left rest1 heq
        exact ihTL _ _ _ _ (ihF _ _ _ heq) h
    · intro left ts e rest hleft h
      rw [termOpLoop] at h
      split at h
      · injection h with h'
        injection h' with h1 h2
        exact h1 ▸ hleft
      · rename_i op hop
        split at h
        · rename_i hmem
          split at h
          · exact absurd h (by simp)
          · rename_i right rest1 heq
            refine ihTL _ _ _ _ ?_ h
            refine ⟨?_, hleft, ihF _ _ _ heq⟩
            simp at hmem
            tauto
        · injection h with h'
          injection h' with h1 h2
          exact h1 ▸ hleft
    · intro ts e rest h
      cases ts with
      | nil =>
        rw [parse_factor] at h
        exact absurd h (by simp)
      | cons token rest0 =>
        rw [parse_factor] at h
        split at h
        · split at h
          · exact absurd h (by simp)
          · rename_i e1 rest1 heq
            split at h
            · exact absurd h (by simp)
            · split at h
              · injection h with h'
                injection h' with h1 h2
                exact h1 ▸ ihE _ _ _ heq
              · exact absurd h (by simp)
        · split at h
          · rename_i num hnum
            injection h with h'
            injection h' with h1 h2
            subst h1
            exact Or.elim (parseF64_good hnum) (fun hn => Or.inl hn) (fun hn => Or.inr hn)
          · exact absurd h (by simp)

theorem goodTree_validOps {e : Expr} (h : GoodTree e) : validOps e = true := by
  induction e with
  | Number v => simp [validOps]
  | BinaryOp op l r ihl ihr =>
    obtain ⟨hop, hl, hr⟩ := h
    rcases hop with h1|h1|h1|h1 <;> subst h1 <;> simp [validOps, ihl hl, ihr hr]

theorem goodTree_evaluate {e : Expr} (h : GoodTree e) : ∃ v, evaluate e = some v := by
  induction e with
  | Number v => exact ⟨v, rfl⟩
  | BinaryOp op l r ihl ihr =>
    obtain ⟨hop, hl, hr⟩ := h
    obtain ⟨lv, hlv⟩ := ihl hl
    obtain ⟨rv, hrv⟩ := ihr hr
    rcases hop with h1|h1|h1|h1 <;> subst h1 <;>
      simp only [evaluate, hlv, hrv] <;> exact ⟨_, rfl⟩

theorem exprOpLoop_leftFold : ∀ fuel left ts e rest,
    exprOpLoop fuel left ts = .ok (e, rest) →
    ∃ ps, (∀ p ∈ ps, p.1 = '+' ∨ p.1 = '-') ∧ e = leftFold left ps := by
  intro fuel
  induction fuel with
  | zero => intro left ts e rest h; simp [exprOpLoop] at h
  | succ f ih =>
    intro left ts e rest h
    rw [exprOpLoop] at h
    split at h
    · injection h with h'
      injection h' with h1 h2
      exact ⟨[], by simp, h1.symm⟩
    · rename_i op hop
      split at h
      · rename_i hmem
        split at h
        · exact absurd h (by simp)
        · rename_i right rest1 heq
          obtain ⟨ps, hps, hfold⟩ := ih _ _ _ _ h
          refine ⟨(op, right) :: ps, ?_, ?_⟩
          · intro p hp
            rcases List.mem_cons.mp hp with h1 | h1
            · subst h1
              simpa using hmem
            · exact hps p h1
          · simpa [leftFold] using hfold
      · injection h with h'
        injection h' with h1 h2
        exact ⟨[], by simp, h1.symm⟩

theorem termOpLoop_leftFold : ∀ fuel left ts e rest,
    termOpLoop fuel left ts = .ok (e, rest) →
    ∃ ps, (∀ p ∈ ps, p.1 = '*' ∨ p.1 = '/') ∧ e = leftFold left ps := by
  intro fuel
  induction fuel with
  | zero => intro left ts e rest h; simp [termOpLoop] at h
  | succ f ih =>
    intro left ts e rest h
    rw [termOpLoop] at h
    split at h
    · injection h with h'
      injection h' with h1 h2
      exact ⟨[], by simp, h1.symm⟩
    · rename_i op hop
      split at h
      · rename_i hmem
        split at h
        · exact absurd h (by simp)
        · rename_i right rest1 heq
          obtain ⟨ps, hps, hfold⟩ := ih _ _ _ _ h
          refine ⟨(op, right) :: ps, ?_, ?_⟩
          · intro p hp
            rcases List.mem_cons.mp hp with h1 | h1
            · subst h1
              simpa using hmem
            · exact hps p h1
          · simpa [leftFold] using hfold
      · injection h with h'
        injection h' with h1 h2
        exact ⟨[], by simp, h1.symm⟩

/-- C1: for the input string "2 + 3 * 4", `parse_expression` returns `Ok` of
the tree `BinaryOp('+', Number(2.0), BinaryOp('*', Number(3.0), Number(4.0)))`
and `evaluate` applied to that tree returns `14.0`: multiplication binds
tighter than addition under the three-level grammar. -/
theorem C1_precedence_two_plus_three_times_four :
    parse_expression "2 + 3 * 4" = .ok tree234 ∧
    evaluate tree234 = some (.finite 14) := by decide

/-- C2: each operator-chain loop of `parse_binary_op` folds its operands
into a left-growing tree (`left = BinaryOp(op, left, right)`), so
equal-precedence operators group left to right; in particular
"8 - 3 - 2" parses to the left-grouped tree and evaluates to `3.0`. -/
theorem C2_left_associativity :
    (∀ fuel left ts e rest, exprOpLoop fuel left ts = .ok (e, rest) →
      ∃ ps, (∀ p ∈ ps, p.1 = '+' ∨ p.1 = '-') ∧ e = leftFold left ps) ∧
    (∀ fuel left ts e rest, termOpLoop fuel left ts = .ok (e, rest) →
      ∃ ps, (∀ p ∈ ps, p.1 = '*' ∨ p.1 = '/') ∧ e = leftFold left ps) ∧
    parse_expression "8 - 3 - 2" = .ok tree832 ∧
    evaluate tree832 = some (.finite 3) :=
  ⟨exprOpLoop_leftFold, termOpLoop_leftFold, by decide, by decide⟩

theorem C2_left_associativity_witness :
    exprOpLoop 20 (.Number (.finite 8)) ["-", "3", "-", "2"] = .ok (tree832, []) ∧
    ∃ ps, (∀ p ∈ ps, p.1 = '+' ∨ p.1 = '-') ∧
      tree832 = leftFold (.Number (.finite 8)) ps :=
  ⟨by decide, C2_left_associativity.1 20 (.Number (.finite 8)) ["-", "3", "-", "2"] tree832 []
    (by decide)⟩

/-- C3: every tree returned by `parse_expression` has all its binary
operators among `+ - * /`, and `evaluate` is total on it: the unreachable
fall-through arm (modelled by `none`) is never taken. -/
theorem C3_parser_invariant_evaluate_total : ∀ input e,
    parse_expression input = .ok e →
    validOps e = true ∧ (evaluate e).isSome = true := by
  intro input e h
  rw [parse_expression] at h
  split at h
  · rename_i e1 rest1 heq
    injection h with h'
    subst h'
    have hg := (parse_good (10 * (tokenize input).length + 10)).1 _ _ _ heq
    refine ⟨goodTree_validOps hg, ?_⟩
    obtain ⟨v, hv⟩ := goodTree_evaluate hg
    simp [hv]
  · exact absurd h (by simp)

theorem C3_parser_invariant_evaluate_total_witness :
    parse_expression "2 + 3 * 4" = .ok tree234 ∧
    validOps tree234 = true ∧ (evaluate tree234).isSome = true :=
  ⟨by decide, C3_parser_invariant_evaluate_total "2 + 3 * 4" tree234 (by decide)⟩

/-- C5: the five specified error cases: empty input gives `UnexpectedEnd`;
"(" gives `UnexpectedEnd` or `MissingClosingParenthesis`; "2 + (3 * 4"
gives `MissingClosingParenthesis`; "2 + x" gives `UnexpectedToken("x")`;
"2 + + 3" gives `UnexpectedToken("+")`. -/
theorem C5_error_cases :
    parse_expression "" = .error .UnexpectedEnd ∧
    (parse_expression "(" = .error .UnexpectedEnd ∨
      parse_expression "(" = .error .MissingClosingParenthesis) ∧
    parse_expression "2 + (3 * 4" = .error .MissingClosingParenthesis ∧
    parse_expression "2 + x" = .error (.UnexpectedToken "x") ∧
    parse_expression "2 + + 3" = .error (.UnexpectedToken "+") := by decide

/-- C6: `parse_expression` does not require the whole token stream to be
consumed: whatever tokens `parse_expr` leaves over are dropped, so any
trailing tokens after a complete expression are silently ignored; in
particular "2 + 3 ) )" parses as the tree of `2 + 3`. -/
theorem C6_trailing_tokens_ignored : ∀ input e rest,
    parse_expr (10 * (tokenize input).length + 10) (tokenize input) = .ok (e, rest) →
    parse_expression input = .ok e := by
  intro input e rest h
  rw [parse_expression]
  split
  · rename_i e1 rest1 heq
    rw [heq] at h
    injection h with h'
    injection h' with h1 h2
    rw [h1]
  · rename_i heq
    rw [heq] at h
    exact absurd h (by simp)

theorem C6_trailing_tokens_ignored_witness :
    parse_expr (10 * (tokenize "2 + 3 ) )").length + 10) (tokenize "2 + 3 ) )") =
      .ok (tree23, [")", ")"]) ∧
    parse_expression "2 + 3 ) )" = .ok tree23 :=
  ⟨by decide, C6_trailing_tokens_ignored "2 + 3 ) )" tree23 [")", ")"] (by decide)⟩

/-- C8: `evaluate` combines the values of both children with the modelled
IEEE-754 double operation of the node's operator; dividing a nonzero finite
value by zero yields an infinity and `0/0` yields NaN, never an error; in
particular "10 / (5 - 5)" parses successfully and evaluates to `+inf`,
a non-finite value. -/
theorem C8_ieee_division_by_zero :
    (∀ l r lv rv, evaluate l = some lv → evaluate r = some rv →
      evaluate (.BinaryOp '+' l r) = some (F64.add lv rv) ∧
      evaluate (.BinaryOp '-' l r) = some (F64.sub lv rv) ∧
      evaluate (.BinaryOp '*' l r) = some (F64.mul lv rv) ∧
      evaluate (.BinaryOp '/' l r) = some (F64.div lv rv)) ∧
    (∀ a : ℚ, (F64.div (.finite a) (.finite 0)).isNonFinite = true) ∧
    parse_expression "10 / (5 - 5)" = .ok treeDiv0 ∧
    evaluate treeDiv0 = some (.inf true) ∧
    (F64.inf true).isNonFinite = true := by
  refine ⟨?_, ?_, by decide, by decide, by decide⟩
  · intro l r lv rv hl hr
    refine ⟨?_, ?_, ?_, ?_⟩ <;> simp only [evaluate, hl, hr]
  · intro a
    by_cases h : a = 0 <;> simp [F64.div, h, F64.isNonFinite]

theorem C8_ieee_division_by_zero_witness :
    evaluate (.BinaryOp '/' (.Number (.finite 10)) (.Number (.finite 0))) =
      some (F64.div (.finite 10) (.finite 0)) :=
  (C8_ieee_division_by_zero.1 (.Number (.finite 10)) (.Number (.finite 0))
    (.finite 10) (.finite 0) (by decide) (by decide)).2.2.2

/-- C9: `toInfix` renders a `Number` leaf as its numeric text and every
`BinaryOp` as `"(" + left + " " + op + " " + right + ")"`, fully
parenthesized regardless of precedence; "1 + 2 * 3" renders as
`(1 + (2 * 3))` and the lone literal "42" renders as `42` with no
parentheses. -/
theorem C9_full_parenthesization :
    (∀ op l r, toInfix (.BinaryOp op l r) =
      "(" ++ toInfix l ++ " " ++ String.singleton op ++ " " ++ toInfix r ++ ")") ∧
    (∀ v, toInfix (.Number v) = fmtF64 v) ∧
    parse_expression "1 + 2 * 3" = .ok tree123 ∧
    toInfix tree123 = "(1 + (2 * 3))" ∧
    parse_expression "42" = .ok (.Number (.finite 42)) ∧
    toInfix (.Number (.finite 42)) = "42" :=
  ⟨fun _ _ _ => rfl, fun _ => rfl, by decide, by decide, by decide, by decide⟩

/-- C10: on the input "()", `parse_factor` consumes the ")" token in operand
position, the numeric parse of ")" fails, and the result is
`UnexpectedToken(")")` — not `MissingClosingParenthesis` and not
`UnexpectedEnd`. -/
theorem C10_empty_group_unexpected_token :
    (∀ fuel ts, parse_factor (fuel + 1) (")" :: ts) = .error (.UnexpectedToken ")")) ∧
    parse_expression "()" = .error (.UnexpectedToken ")") := by
  refine ⟨?_, by decide⟩
  intro fuel ts
  rfl

theorem parse_expr_ok_step {f : Nat} {ts ts' : List String} {l : Expr}
    (h : parse_term f ts = .ok (l, ts')) :
    parse_expr (f + 1) ts = exprOpLoop f l ts' := by
  rw [parse_expr, h]

theorem parse_term_ok_step {f : Nat} {ts ts' : List String} {l : Expr}
    (h : parse_factor f ts = .ok (l, ts')) :
    parse_term (f + 1) ts = termOpLoop f l ts' := by
  rw [parse_term, h]

theorem parse_factor_lparen_step {f : Nat} {ts ts' : List String} {e : Expr}
    (h : parse_expr f ts = .ok (e, ")" :: ts')) :
    parse_factor (f + 1) ("(" :: ts) = .ok (e, ts') := by
  rw [parse_factor, h]
  rfl

theorem parse_factor_num_step {f : Nat} {tok : String} {ts : List String} {v : F64}
    (h1 : tok ≠ "(") (h2 : parseF64 tok = some v) :
    parse_factor (f + 1) (tok :: ts) = .ok (.Number v, ts) := by
  rw [parse_factor, if_neg h1, h2]

theorem exprOpLoop_op_step {f : Nat} {ts ts' : List String} {left r : Expr} {op : Char}
    (hc : ts.head?.bind (fun s => s.data.head?) = some op)
    (hmem : op ∈ ['+', '-'])
    (h : parse_term f ts.tail = .ok (r, ts')) :
    exprOpLoop (f + 1) left ts = exprOpLoop f (.BinaryOp op left r) ts' := by
  rw [exprOpLoop, hc]
  show (if op ∈ ['+', '-'] then
      match parse_term f ts.tail with
      | .error e => .error e
      | .ok (right, rest) => exprOpLoop f (.BinaryOp op left right) rest
    else .ok (left, ts)) = exprOpLoop f (.BinaryOp op left r) ts'
  rw [if_pos hmem, h]

theorem termOpLoop_op_step {f : Nat} {ts ts' : List String} {left r : Expr} {op : Char}
    (hc : ts.head?.bind (fun s => s.data.head?) = some op)
    (hmem : op ∈ ['*', '/'])
    (h : parse_factor f ts.tail = .ok (r, ts')) :
    termOpLoop (f + 1) left ts = termOpLoop f (.BinaryOp op left r) ts' := by
  rw [termOpLoop, hc]
  show (if op ∈ ['*', '/'] then
      match parse_factor f ts.tail with
      | .error e => .error e
      | .ok (right, rest) => termOpLoop f (.BinaryOp op left right) rest
    else .ok (left, ts)) = termOpLoop f (.BinaryOp op left r) ts'
  rw [if_pos hmem, h]

theorem exprOpLoop_stops {f : Nat} {left : Expr} {ts : List String} (h : stopsOps ts) :
    exprOpLoop (f + 1) left ts = .ok (left, ts) := by
  rw [exprOpLoop]
  unfold stopsOps at h
  cases hc : ts.head?.bind (fun s => s.data.head?) with
  | none => rfl
  | some op =>
    rw [hc] at h
    have h' : op ∉ ['+', '-', '*', '/'] := h
    show (if op ∈ ['+', '-'] then
        match parse_term f ts.tail with
        | Except.error e => Except.error e
        | Except.ok (right, rest) => exprOpLoop f (.BinaryOp op left right) rest
      else Except.ok (left, ts)) = Except.ok (left, ts)
    rw [if_neg ?_]
    intro hmem
    exact h' (by simp at hmem ⊢; tauto)

theorem termOpLoop_stops {f : Nat} {left : Expr} {ts : List String} (h : stopsOps ts) :
    termOpLoop (f + 1) left ts = .ok (left, ts) := by
  rw [termOpLoop]
  unfold stopsOps at h
  cases hc : ts.head?.bind (fun s => s.data.head?) with
  | none => rfl
  | some op =>
    rw [hc] at h
    have h' : op ∉ ['+', '-', '*', '/'] := h
    show (if op ∈ ['*', '/'] then
        match parse_factor f ts.tail with
        | Except.error e => Except.error e
        | Except.ok (right, rest) => termOpLoop f (.BinaryOp op left right) rest
      else Except.ok (left, ts)) = Except.ok (left, ts)
    rw [if_neg ?_]
    intro hmem
    exact h' (by simp at hmem ⊢; tauto)

theorem stopsOps_nil : stopsOps [] := trivial

theorem stopsOps_rparen (ts : List String) : stopsOps (")" :: ts) := by
  show (')' : Char) ∉ ['+', '-', '*', '/']
  decide

theorem esize_pos : ∀ t, 1 ≤ esize t := by
  intro t
  cases t <;> simp [esize]

theorem natDigitsAux_mem : ∀ fuel n c, c ∈ natDigitsAux fuel n →
    ∃ m, m < 10 ∧ c = Nat.digitChar m := by
  intro fuel
  induction fuel with
  | zero => intro n c h; simp [natDigitsAux] at h
  | succ f ih =>
    intro n c h
    rw [natDigitsAux] at h
    split at h
    · simp at h
    · rcases List.mem_append.mp h with h1 | h1
      · exact ih _ _ h1
      · simp at h1
        exact ⟨n % 10, Nat.mod_lt _ (by omega), h1⟩

theorem digitChar_facts : ∀ m, m < 10 →
    (Nat.digitChar m).isDigit = true ∧ (Nat.digitChar m).isWhitespace = false ∧
    Nat.digitChar m ≠ '(' := by decide

theorem digitChar_toNat : ∀ m, m < 10 → (Nat.digitChar m).toNat - 48 = m := by decide

theorem natToDecimal_chars {n : Nat} {c : Char} (h : c ∈ (natToDecimal n).data) :
    c.isDigit = true ∧ c.isWhitespace = false ∧ c ≠ '(' := by
  unfold natToDecimal at h
  split at h
  · simp at h
    subst h
    exact ⟨rfl, rfl, by decide⟩
  · obtain ⟨m, hm, hc⟩ := natDigitsAux_mem _ _ _ h
    subst hc
    exact digitChar_facts m hm

theorem natToDecimal_ne_nil (n : Nat) : (natToDecimal n).data ≠ [] := by
  unfold natToDecimal
  split
  · decide
  · rename_i hn
    rw [natDigitsAux, if_neg hn]
    simp

theorem natToDecimal_ne_lparen (n : Nat) : natToDecimal n ≠ "(" := by
  intro h
  have hm : '(' ∈ (natToDecimal n).data := by rw [h]; decide
  exact (natToDecimal_chars hm).2.2 rfl

theorem digitsToNat_append (xs : List Char) (c : Char) :
    digitsToNat (xs ++ [c]) = 10 * digitsToNat xs + (c.toNat - 48) := by
  unfold digitsToNat
  rw [List.foldl_append]
  rfl

theorem digitsToNat_natDigitsAux : ∀ fuel n, n ≤ fuel →
    digitsToNat (natDigitsAux fuel n) = n := by
  intro fuel
  induction fuel with
  | zero =>
    intro n h
    have : n = 0 := by omega
    subst this
    rfl
  | succ f ih =>
    intro n h
    rw [natDigitsAux]
    split
    · rename_i h0
      subst h0
      rfl
    · rename_i h0
      rw [digitsToNat_append]
      have hlt : n / 10 < n := Nat.div_lt_self (by omega) (by omega)
      rw [ih (n / 10) (by omega)]
      have h10 : n % 10 < 10 := Nat.mod_lt _ (by omega)
      rw [digitChar_toNat (n % 10) h10]
      omega

theorem digitsToNat_natToDecimal (n : Nat) : digitsToNat (natToDecimal n).data = n := by
  unfold natToDecimal
  split
  · rename_i h; subst h; rfl
  · exact digitsToNat_natDigitsAux (n + 1) n (by omega)

theorem fmtF64_nat (n : Nat) : fmtF64 (.finite (n : ℚ)) = natToDecimal n := by
  show (if ((n : ℚ)).den = 1 then
      if ((n : ℚ)).num < 0 then "-" ++ natToDecimal ((n : ℚ)).num.natAbs
      else natToDecimal ((n : ℚ)).num.natAbs
    else
      (if ((n : ℚ)).num < 0 then "-" else "")
        ++ natToDecimal (((n : ℚ)).num.natAbs / ((n : ℚ)).den) ++ "."
        ++ String.mk (fracDigitsAux 17 (((n : ℚ)).num.natAbs % ((n : ℚ)).den) ((n : ℚ)).den))
    = natToDecimal n
  rw [Rat.den_natCast, if_pos rfl, Rat.num_natCast]
  rw [if_neg (by omega), Int.natAbs_ofNat]

theorem parseF64_natToDecimal {n : Nat} (h : n < f64OverflowBound) :
    parseF64 (natToDecimal n) = some (.finite (n : ℚ)) := by
  unfold parseF64
  rw [if_pos, if_neg]
  · rw [digitsToNat_natToDecimal]
  · rw [digitsToNat_natToDecimal]
    omega
  · refine ⟨natToDecimal_ne_nil n, ?_⟩
    rw [List.all_eq_true]
    intro c hc
    exact (natToDecimal_chars hc).1

theorem tokenizeGo_digits : ∀ ds rest num,
    (∀ c ∈ ds, c.isDigit = true ∧ c.isWhitespace = false) →
    tokenizeGo (ds ++ rest) num = tokenizeGo rest (num ++ ds) := by
  intro ds
  induction ds with
  | nil => intro rest num h; simp
  | cons c cs ih =>
    intro rest num h
    have hc := h c (by simp)
    rw [List.cons_append, tokenizeGo]
    rw [if_neg (by simp [hc.2]), if_pos hc.1]
    rw [ih rest (num ++ [c]) (fun d hd => h d (by simp [hd]))]
    simp

theorem tokenizeGo_flush : ∀ rest num, num ≠ [] → stopsNumber rest →
    tokenizeGo rest num = String.mk num :: tokenizeGo rest [] := by
  intro rest
  induction rest with
  | nil =>
    intro num hn hs
    rw [tokenizeGo, tokenizeGo, if_neg hn]
    rfl
  | cons c cs ih =>
    intro num hn hs
    by_cases hws : c.isWhitespace
    · rw [tokenizeGo, if_pos hws]
      rw [show tokenizeGo (c :: cs) [] = tokenizeGo cs [] from by rw [tokenizeGo, if_pos hws]]
      refine ih num hn ?_
      unfold stopsNumber at hs ⊢
      rwa [List.dropWhile_cons, if_pos hws] at hs
    · by_cases hd : c.isDigit
      · exfalso
        unfold stopsNumber at hs
        rw [List.dropWhile_cons, if_neg hws] at hs
        have hs' : c.isDigit = false := hs
        rw [hd] at hs'
        exact absurd hs' (by decide)
      · rw [tokenizeGo, if_neg hws, if_neg hd, if_neg hn]
        have h2 : tokenizeGo (c :: cs) ([] : List Char) =
            Char.toString c :: tokenizeGo cs [] := by
          rw [tokenizeGo, if_neg hws, if_neg hd]
          rfl
        rw [h2]
        rfl

theorem termOpLoop_stop_at {f : Nat} {left : Expr} {ts : List String} {op : Char}
    (hc : ts.head?.bind (fun s => s.data.head?) = some op) (hmem : op ∉ ['*', '/']) :
    termOpLoop (f + 1) left ts = .ok (left, ts) := by
  rw [termOpLoop, hc]
  show (if op ∈ ['*', '/'] then
      match parse_factor f ts.tail with
      | Except.error e => Except.error e
      | Except.ok (right, rest) => termOpLoop f (.BinaryOp op left right) rest
    else Except.ok (left, ts)) = Except.ok (left, ts)
  rw [if_neg hmem]

theorem headChar_singleton (op : Char) (rest : List String) :
    ((String.singleton op) :: rest).head?.bind (fun s => s.data.head?) = some op := rfl

theorem op_ws_digit {op : Char} (h : op = '+' ∨ op = '-' ∨ op = '*' ∨ op = '/') :
    op.isWhitespace = false ∧ op.isDigit = false := by
  rcases h with h|h|h|h <;> subst h <;> exact ⟨rfl, rfl⟩

theorem tokenize_toInfix_go : ∀ t, Renderable t → ∀ rest, stopsNumber rest →
    tokenizeGo ((toInfix t).data ++ rest) [] = renderF t ++ tokenizeGo rest [] := by
  intro t
  induction t with
  | Number v =>
    intro hr rest hs
    obtain ⟨n, hn, hv⟩ := hr
    subst hv
    rw [toInfix, fmtF64_nat]
    rw [tokenizeGo_digits _ rest []
      (fun c hc => ⟨(natToDecimal_chars hc).1, (natToDecimal_chars hc).2.1⟩)]
    rw [List.nil_append]
    rw [tokenizeGo_flush rest _ (natToDecimal_ne_nil n) hs]
    rw [renderF, fmtF64_nat]
    rfl
  | BinaryOp op l r ihl ihr =>
    intro hr rest hs
    obtain ⟨hop, hl, hr2⟩ := hr
    have hof := op_ws_digit hop
    have hdata : (toInfix (Expr.BinaryOp op l r)).data ++ rest
        = '(' :: ((toInfix l).data ++ (' ' :: op :: ' ' :: ((toInfix r).data ++ (')' :: rest)))) := by
      rw [toInfix, String.data_append, String.data_append, String.data_append,
          String.data_append, String.data_append]
      show ['('] ++ (toInfix l).data ++ [' '] ++ [op] ++ [' '] ++ (toInfix r).data ++ [')'] ++ rest
          = '(' :: ((toInfix l).data ++ (' ' :: op :: ' ' :: ((toInfix r).data ++ (')' :: rest))))
      simp
    rw [hdata]
    have h1 : tokenizeGo
        ('(' :: ((toInfix l).data ++ (' ' :: op :: ' ' :: ((toInfix r).data ++ (')' :: rest))))) [] =
        "(" :: tokenizeGo ((toInfix l).data ++ (' ' :: op :: ' ' :: ((toInfix r).data ++ (')' :: rest)))) [] := by
      rw [tokenizeGo, if_neg (by decide), if_neg (by decide)]
      rfl
    rw [h1]
    have hs1 : stopsNumber (' ' :: op :: ' ' :: ((toInfix r).data ++ (')' :: rest))) := by
      unfold stopsNumber
      rw [List.dropWhile_cons, if_pos (by decide)]
      rw [List.dropWhile_cons, if_neg (by simp [hof.1])]
      exact hof.2
    rw [ihl hl _ hs1]
    have hws1 : tokenizeGo (' ' :: op :: ' ' :: ((toInfix r).data ++ (')' :: rest))) [] =
        tokenizeGo (op :: ' ' :: ((toInfix r).data ++ (')' :: rest))) [] := by
      rw [tokenizeGo, if_pos (by decide)]
    rw [hws1]
    have hop1 : tokenizeGo (op :: ' ' :: ((toInfix r).data ++ (')' :: rest))) [] =
        String.singleton op :: tokenizeGo (' ' :: ((toInfix r).data ++ (')' :: rest))) [] := by
      rw [tokenizeGo, if_neg (by simp [hof.1]), if_neg (by simp [hof.2])]
      rfl
    rw [hop1]
    have hws2 : tokenizeGo (' ' :: ((toInfix r).data ++ (')' :: rest))) [] =
        tokenizeGo ((toInfix r).data ++ (')' :: rest)) [] := by
      rw [tokenizeGo, if_pos (by decide)]
    rw [hws2]
    have hs2 : stopsNumber (')' :: rest) := by
      unfold stopsNumber
      rw [List.dropWhile_cons, if_neg (by decide)]
      rfl
    rw [ihr hr2 _ hs2]
    have h5 : tokenizeGo (')' :: rest) [] = ")" :: tokenizeGo rest [] := by
      rw [tokenizeGo, if_neg (by decide), if_neg (by decide)]
      rfl
    rw [h5, renderF]
    simp

theorem tokenize_toInfix {t : Expr} (hr : Renderable t) :
    tokenize ( toInfix t) = renderF t := by
  unfold tokenize
  have h := tokenize_toInfix_go t hr [] trivial
  rw [List.append_nil] at h
  rw [h]
  simp [tokenizeGo]

theorem parse_render : ∀ t, Renderable t →
    (∀ rest fuel, stopsOps rest → 4 * esize t + 4 ≤ fuel →
      parse_expr fuel (renderE t ++ rest) = .ok (t, rest)) ∧
    (∀ rest fuel, 4 * esize t + 5 ≤ fuel →
      parse_factor fuel (renderF t ++ rest) = .ok (t, rest)) := by
  intro t
  induction t with
  | Number v =>
    intro hr
    obtain ⟨n, hn, hv⟩ := hr
    subst hv
    have hfac : ∀ rest fuel, 1 ≤ fuel →
        parse_factor fuel (renderF (Expr.Number (F64.finite (n : ℚ))) ++ rest) =
          .ok (Expr.Number (F64.finite (n : ℚ)), rest) := by
      intro rest fuel hf
      obtain ⟨f1, rfl⟩ : ∃ f1, fuel = f1 + 1 := ⟨fuel - 1, by omega⟩
      rw [renderF, fmtF64_nat, List.singleton_append]
      exact parse_factor_num_step (natToDecimal_ne_lparen n) (parseF64_natToDecimal hn)
    constructor
    · intro rest fuel hs hf
      obtain ⟨f1, rfl⟩ : ∃ f1, fuel = f1 + 1 := ⟨fuel - 1, by omega⟩
      obtain ⟨f2, rfl⟩ : ∃ f2, f1 = f2 + 1 := ⟨f1 - 1, by omega⟩
      obtain ⟨f3, rfl⟩ : ∃ f3, f2 = f3 + 1 := ⟨f2 - 1, by omega⟩
      rw [show renderE (Expr.Number (F64.finite (n : ℚ)))
          = renderF (Expr.Number (F64.finite (n : ℚ))) from rfl]
      have ht : parse_term (f3 + 1 + 1) (renderF (Expr.Number (F64.finite (n : ℚ))) ++ rest) =
          .ok (Expr.Number (F64.finite (n : ℚ)), rest) := by
        rw [parse_term_ok_step (hfac rest (f3 + 1) (by omega))]
        exact termOpLoop_stops hs
      rw [parse_expr_ok_step ht]
      exact exprOpLoop_stops hs
    · intro rest fuel hf
      exact hfac rest fuel (by omega)
  | BinaryOp op l r ihl ihr =>
    intro hr
    obtain ⟨hop, hl, hr2⟩ := hr
    obtain ⟨hfl, hfacl⟩ := ihl hl
    obtain ⟨hfr, hfacr⟩ := ihr hr2
    have hsl : 1 ≤ esize l := esize_pos l
    have hsr : 1 ≤ esize r := esize_pos r
    have hexpr : ∀ rest fuel, stopsOps rest → 4 * esize (Expr.BinaryOp op l r) + 4 ≤ fuel →
        parse_expr fuel (renderE (Expr.BinaryOp op l r) ++ rest) =
          .ok (Expr.BinaryOp op l r, rest) := by
      intro rest fuel hs hf
      simp only [esize] at hf
      obtain ⟨f1, rfl⟩ : ∃ f1, fuel = f1 + 1 := ⟨fuel - 1, by omega⟩
      obtain ⟨f2, rfl⟩ : ∃ f2, f1 = f2 + 1 := ⟨f1 - 1, by omega⟩
      rw [renderE, List.append_assoc, List.cons_append]
      have hcase : op ∈ ['+', '-'] ∨ op ∈ ['*', '/'] := by
        rcases hop with h|h|h|h <;> subst h <;> simp
      rcases hcase with hmem | hmem
      · have hnotmul : op ∉ ['*', '/'] := by
          rcases (by simpa using hmem : op = '+' ∨ op = '-') with h|h <;> subst h <;> decide
        have ht : parse_term (f2 + 1)
            (renderF l ++ (String.singleton op :: (renderF r ++ rest))) =
            .ok (l, String.singleton op :: (renderF r ++ rest)) := by
          obtain ⟨f3, rfl⟩ : ∃ f3, f2 = f3 + 1 := ⟨f2 - 1, by omega⟩
          rw [parse_term_ok_step (hfacl _ (f3 + 1) (by omega))]
          exact termOpLoop_stop_at (headChar_singleton op _) hnotmul
        rw [parse_expr_ok_step ht]
        have ht2 : parse_term f2 (renderF r ++ rest) = .ok (r, rest) := by
          obtain ⟨f3, rfl⟩ : ∃ f3, f2 = f3 + 1 := ⟨f2 - 1, by omega⟩
          obtain ⟨f4, rfl⟩ : ∃ f4, f3 = f4 + 1 := ⟨f3 - 1, by omega⟩
          rw [parse_term_ok_step (hfacr _ (f4 + 1) (by omega))]
          exact termOpLoop_stops hs
        rw [exprOpLoop_op_step (headChar_singleton op _) hmem ht2]
        obtain ⟨f3, rfl⟩ : ∃ f3, f2 = f3 + 1 := ⟨f2 - 1, by omega⟩
        exact exprOpLoop_stops hs
      · have ht : parse_term (f2 + 1)
            (renderF l ++ (String.singleton op :: (renderF r ++ rest))) =
            .ok (Expr.BinaryOp op l r, rest) := by
          obtain ⟨f3, rfl⟩ : ∃ f3, f2 = f3 + 1 := ⟨f2 - 1, by omega⟩
          rw [parse_term_ok_step (hfacl _ (f3 + 1) (by omega))]
          obtain ⟨f4, rfl⟩ : ∃ f4, f3 = f4 + 1 := ⟨f3 - 1, by omega⟩
          have hfac2 : parse_factor (f4 + 1) (renderF r ++ rest) = .ok (r, rest) :=
            hfacr _ (f4 + 1) (by omega)
          rw [termOpLoop_op_step (headChar_singleton op _) hmem hfac2]
          exact termOpLoop_stops hs
        rw [parse_expr_ok_step ht]
        exact exprOpLoop_stops hs
    refine ⟨hexpr, ?_⟩
    intro rest fuel hf
    obtain ⟨f1, rfl⟩ : ∃ f1, fuel = f1 + 1 := ⟨fuel - 1, by omega⟩
    rw [renderF]
    rw [show ((("(" :: (renderF l ++ String.singleton op :: renderF r)) ++ [")"]) ++ rest)
        = "(" :: ((renderF l ++ String.singleton op :: renderF r) ++ (")" :: rest)) from by simp]
    rw [show (renderF l ++ String.singleton op :: renderF r)
        = renderE (Expr.BinaryOp op l r) from rfl]
    refine parse_factor_lparen_step ?_
    refine hexpr (")" :: rest) f1 (stopsOps_rparen rest) ?_
    simp only [esize] at hf ⊢
    omega

theorem esize_le_renderF : ∀ t, esize t ≤ (renderF t).length := by
  intro t
  induction t with
  | Number v => simp [esize, renderF]
  | BinaryOp op l r ihl ihr =>
    simp only [esize, renderF]
    simp only [List.length_append, List.length_cons, List.length_append]
    omega

theorem parse_expr_renderF {t : Expr} (hr : Renderable t) {rest : List String} {fuel : Nat}
    (hs : stopsOps rest) (hf : 4 * esize t + 7 ≤ fuel) :
    parse_expr fuel (renderF t ++ rest) = .ok (t, rest) := by
  obtain ⟨f1, rfl⟩ : ∃ f1, fuel = f1 + 1 := ⟨fuel - 1, by omega⟩
  obtain ⟨f2, rfl⟩ : ∃ f2, f1 = f2 + 1 := ⟨f1 - 1, by omega⟩
  have ht : parse_term (f2 + 1) (renderF t ++ rest) = .ok (t, rest) := by
    obtain ⟨f3, rfl⟩ : ∃ f3, f2 = f3 + 1 := ⟨f2 - 1, by omega⟩
    rw [parse_term_ok_step ((parse_render t hr).2 rest (f3 + 1) (by omega))]
    exact termOpLoop_stops hs
  rw [parse_expr_ok_step ht]
  exact exprOpLoop_stops hs

theorem parse_expression_toInfix {t : Expr} (hr : Renderable t) :
    parse_expression ( toInfix t) = .ok t := by
  rw [parse_expression]
  rw [tokenize_toInfix hr]
  have hlen := esize_le_renderF t
  have h := @parse_expr_renderF t hr [] (10 * (renderF t).length + 10)
    stopsOps_nil (by omega)
  rw [List.append_nil] at h
  rw [h]

theorem goodTree_renderable : ∀ t, GoodTree t → allFiniteLeaves t = true → Renderable t := by
  intro t
  induction t with
  | Number v =>
    intro hg hfin
    rcases hg with h | h
    · exact h
    · subst h
      simp [allFiniteLeaves] at hfin
  | BinaryOp op l r ihl ihr =>
    intro hg hfin
    obtain ⟨hop, hl, hr⟩ := hg
    rw [allFiniteLeaves, Bool.and_eq_true] at hfin
    exact ⟨hop, ihl hl hfin.1, ihr hr hfin.2⟩

/-- C4 (as amended): for every input over the valid alphabet on which
`parse_expression` succeeds with a tree `t` all of whose literals are finite
(no literal at or above the IEEE-754 double overflow threshold), re-parsing
the rendered infix string succeeds and the re-parsed tree evaluates to the
same value (indeed the re-parsed tree is `t` itself).  The finiteness
hypothesis is forced by the counterexample
`C4_infix_roundtrip_counterexample`: a 310-digit literal parses to `+inf`,
renders as "inf", and fails to re-parse. -/
theorem C4_infix_roundtrip_amended : ∀ input t,
    (∀ c ∈ input.data, validChar c = true) →
    parse_expression input = .ok t →
    allFiniteLeaves t = true →
    ∃ t2, parse_expression ( toInfix t) = .ok t2 ∧ evaluate t2 = evaluate t := by
  intro input t hvc h hfin
  refine ⟨t, ?_, rfl⟩
  have hg : GoodTree t := by
    rw [parse_expression] at h
    split at h
    · rename_i e1 r1 heq
      injection h with h'
      subst h'
      exact (parse_good _).1 _ _ _ heq
    · exact absurd h (by simp)
  exact parse_expression_toInfix (goodTree_renderable t hg hfin)

theorem C4_infix_roundtrip_amended_witness :
    (∀ c ∈ ("2 + 3 * 4" : String).data, validChar c = true) ∧
    parse_expression "2 + 3 * 4" = .ok tree234 ∧
    allFiniteLeaves tree234 = true ∧
    ∃ t2, parse_expression ( toInfix tree234) = .ok t2 ∧ evaluate t2 = evaluate tree234 :=
  ⟨by decide, by decide, by decide,
    C4_infix_roundtrip_amended "2 + 3 * 4" tree234 (by decide) (by decide) (by decide)⟩

/-- C4 counterexample: the input consisting of the valid characters
`1` followed by 309 zeros parses to the single leaf `+inf` (Rust's
`str::parse::<f64>` overflows to infinity), whose infix rendering is "inf";
re-parsing "inf" fails with `UnexpectedToken("i")`, so the round-trip of the
claim does not hold on this valid input. -/
theorem C4_infix_roundtrip_counterexample :
    (∀ c ∈ overflowInput.data, validChar c = true) ∧
    parse_expression overflowInput = .ok (.Number (.inf true)) ∧
    toInfix (.Number (.inf true)) = "inf" ∧
    parse_expression "inf" = .error (.UnexpectedToken "i") ∧
    ∀ t2, parse_expression ( toInfix (Expr.Number (F64.inf true))) ≠ .ok t2 := by
  refine ⟨by decide, by decide, by decide, by decide, ?_⟩
  intro t2 h
  rw [show toInfix (Expr.Number (F64.inf true)) = "inf" from by decide] at h
  rw [show parse_expression "inf" = .error (.UnexpectedToken "i") from by decide] at h
  exact absurd h (by simp)

theorem dot_token_of_mem : ∀ cs num, '.' ∈ cs → ("." : String) ∈ tokenizeGo cs num := by
  intro cs
  induction cs with
  | nil => intro num h; simp at h
  | cons c cs ih =>
    intro num h
    by_cases hc : c = '.'
    · subst hc
      rw [tokenizeGo, if_neg (by decide), if_neg (by decide)]
      refine List.mem_append_right _ ?_
      exact List.mem_cons_self _ _
    · have h' : '.' ∈ cs := by
        rcases List.mem_cons.mp h with h1 | h1
        · exact absurd h1.symm hc
        · exact h1
      rw [tokenizeGo]
      by_cases hws : c.isWhitespace
      · rw [if_pos hws]
        exact ih num h'
      · rw [if_neg hws]
        by_cases hd : c.isDigit
        · rw [if_pos hd]
          exact ih _ h'
        · rw [if_neg hd]
          refine List.mem_append_right _ ?_
          exact List.mem_cons_of_mem _ (ih [] h')

/-- C7 counterexample: the input "1.5" contains a `.` yet `parse_expression`
does not return `UnexpectedToken(".")`: the literal `1` parses as a complete
expression and the trailing tokens `.` and `5` are silently ignored, so the
result is `Ok(Number(1.0))` — and in particular "1.5" is not accepted as the
number 1.5. -/
theorem C7_dot_rejection_counterexample :
    ('.' ∈ ("1.5" : String).data) ∧
    parse_expression "1.5" = .ok (.Number (.finite 1)) ∧
    parse_expression "1.5" ≠ .error (.UnexpectedToken ".") := by decide

/-- C7 (as amended): a `.` in the input is always tokenized as its own
single-character token; whenever the parser consumes that token in operand
position, it is rejected as `UnexpectedToken(".")` (so a fractional literal
is never parsed: "1.5" parses as the number `1` with the trailing `.` `5`
ignored, not as `1.5`); but an input containing `.` need not fail overall,
because trailing tokens are ignored. -/
theorem C7_dot_rejection_amended :
    (∀ cs num, '.' ∈ cs → ("." : String) ∈ tokenizeGo cs num) ∧
    (∀ fuel ts, parse_factor (fuel + 1) ("." :: ts) = .error (.UnexpectedToken ".")) ∧
    parse_expression ". 5" = .error (.UnexpectedToken ".") ∧
    parse_expression "1.5" = .ok (.Number (.finite 1)) := by
  refine ⟨dot_token_of_mem, ?_, by decide, by decide⟩
  intro fuel ts
  rfl

theorem C7_dot_rejection_amended_witness :
    ("." : String) ∈ tokenizeGo ("1.5" : String).data [] :=
  C7_dot_rejection_amended.1 ("1.5" : String).data [] (by decide)
